import Mathlib

/-! Verification development for the seller-apis repository (seller.py, market.py):
a shallow embedding of the reconciliation-and-batch-dispatch engine and proofs
of the specified properties.

Conventions of the embedding:
- Python dict rows from the canonical feed become the structure CanonicalRecord
  with fields code / quantityRaw / priceRaw (the spec names for the Python keys
  used by the source).
- Fallible Python code (int() raising ValueError, range() rejecting a zero
  step, a transport error raised by a page fetch) is modelled with Option /
  Except values.
- In-place mutation of the offer_ids list of the caller (list.remove) is modelled by
  explicit state passing: functions that mutate the list return the final value
  of the list alongside their result.
-/

/-- Base-10 value of a list of digit characters (most significant first). -/
def digitsVal (ds : List Char) : Nat :=
  ds.foldl (fun a c => 10 * a + (c.toNat - 48)) 0

/-- Strip leading and trailing whitespace from a character sequence (what
the Python int() builtin does to its argument before parsing). -/
def stripWs (cs : List Char) : List Char :=
  ((cs.dropWhile Char.isWhitespace).reverse.dropWhile Char.isWhitespace).reverse

/-- Parse an already-stripped character sequence the way the Python int() builtin does:
an optional single sign followed by a nonempty run of decimal digits; anything
else raises ValueError (modelled as none). -/
def pyIntCore : List Char → Option Int
  | [] => none
  | c :: ds =>
    if c = '-' then
      if ds ≠ [] ∧ ds.all Char.isDigit then some (-(digitsVal ds : Int)) else none
    else if c = '+' then
      if ds ≠ [] ∧ ds.all Char.isDigit then some ((digitsVal ds : Int)) else none
    else if (c :: ds).all Char.isDigit then some ((digitsVal (c :: ds) : Int)) else none

/-- Model of the Python builtin int() applied to a character sequence.
PEP-515 underscore separators and non-ASCII digits are not modelled: the feed
values this program converts never contain them. -/
def pyIntChars (cs : List Char) : Option Int :=
  pyIntCore (stripWs cs)

/-- Python int() on a string. -/
def pyInt (s : String) : Option Int :=
  pyIntChars s.toList

/-- The quantity normalization policy shared by seller.create_stocks
(seller.py lines 218-224) and market.create_stocks (market.py lines 175-181):
the shorthand token ">10" maps to 100, the shorthand token "1" maps to 0, and
any other raw value is handed to int(). -/
def normalizeQuantity (raw : String) : Option Int :=
  if raw = ">10" then some 100
  else if raw = "1" then some 0
  else pyInt raw

/-- seller.price_conversion (seller.py line 289):
re.sub of every non-digit with "" applied to price.split(".")[0].  The first
element of split(".") is the part of the string before the first dot, i.e.
takeWhile of the characters different from a dot. -/
def price_conversion (price : String) : String :=
  String.mk ((price.toList.takeWhile (fun c => c != '.')).filter Char.isDigit)

/-- Price normalization as performed on the market side
(market.py line 240: int(price_conversion(watch.get("Цена")))). -/
def normalizePrice (raw : String) : Option Int :=
  pyInt (price_conversion raw)

/-- One canonical feed row: watch.get("Код"), watch.get("Количество"),
watch.get("Цена") already passed through str() where the source does so. -/
structure CanonicalRecord where
  code : String
  quantityRaw : String
  priceRaw : String
deriving DecidableEq

/-- Helper for seller.divide: chunks of size n taken from the front of the
list.  The fuel argument makes the recursion structural; divide always supplies
fuel = lst.length, which is enough because each step with 0 < n consumes at
least one element. -/
def chunksGo (n : Nat) : Nat → List α → List (List α)
  | _, [] => []
  | 0, _ :: _ => []
  | fuel + 1, x :: xs => ((x :: xs).take n) :: chunksGo n fuel ((x :: xs).drop n)

/-- seller.divide (seller.py lines 314-315):
for i in range(0, len(lst), n): yield lst[i : i + n].
Python range semantics on the step n:
- n = 0: range raises ValueError when the generator is iterated (none);
- n < 0: range(0, len(lst), n) is empty, so no chunks are produced and no
  error is raised;
- n > 0: the slices lst[0:n], lst[n:2n], ... i.e. successive take n / drop n. -/
def divide (lst : List α) (n : Int) : Option (List (List α)) :=
  if n = 0 then none
  else if n < 0 then some []
  else some (chunksGo n.toNat lst.length lst)

namespace Seller

/-- One element of the "stocks" list built by seller.create_stocks:
the dict {"offer_id": ..., "stock": ...}. -/
structure StockEntry where
  offer_id : String
  stock : Int
deriving DecidableEq

/-- One element of the "prices" list built by seller.create_prices.  The price
field is the string returned by price_conversion (seller.py does not convert
it to an integer). -/
structure PriceEntry where
  auto_action_enabled : String
  currency_code : String
  offer_id : String
  old_price : String
  price : String
deriving DecidableEq

/-- The first loop of seller.create_stocks (seller.py lines 216-226): iterate
the feed rows; when the code of the row is contained in the current offer_ids list,
normalize the quantity (int() failure aborts the whole call), append a
StockEntry and remove the code from offer_ids (list.remove drops the first
occurrence, modelled by List.erase).  Returns the emitted entries and the
final value of the offer_ids list. -/
def stocksLoop : List CanonicalRecord → List String → Option (List StockEntry × List String)
  | [], ids => some ([], ids)
  | r :: rs, ids =>
    if r.code ∈ ids then
      match normalizeQuantity r.quantityRaw with
      | none => none
      | some q =>
        match stocksLoop rs (ids.erase r.code) with
        | none => none
        | some (st, rest) => some (⟨r.code, q⟩ :: st, rest)
    else stocksLoop rs ids

/-- seller.create_stocks (seller.py lines 214-230): the matched entries of the
first loop followed by a zero-quantity filler for every id still in offer_ids
(the second loop, lines 228-229, iterates the depleted list without clearing
it).  The second component is the final value of the offer_ids list of the caller. -/
def create_stocks (watch_remnants : List CanonicalRecord) (offer_ids : List String) :
    Option (List StockEntry × List String) :=
  match stocksLoop watch_remnants offer_ids with
  | none => none
  | some (st, rest) => some (st ++ rest.map (fun id => ⟨id, 0⟩), rest)

/-- seller.create_prices (seller.py lines 258-269): one PriceEntry per feed row
whose code is contained in offer_ids; offer_ids is never mutated here, so a
duplicated code emits once per occurrence. -/
def create_prices : List CanonicalRecord → List String → List PriceEntry
  | [], _ => []
  | r :: rs, ids =>
    if r.code ∈ ids then
      ⟨"UNKNOWN", "RUB", r.code, "0", price_conversion r.priceRaw⟩ :: create_prices rs ids
    else create_prices rs ids

/-- One product item of a seller catalog page: the dict entry whose "offer_id"
field get_offer_ids projects out. -/
structure Product where
  offer_id : String
deriving DecidableEq

/-- One response of seller.get_product_list: the "items", the declared "total"
count and the "last_id" cursor. -/
structure Page where
  items : List Product
  total : Nat
  last_id : String
deriving DecidableEq

/-- The while-True loop of seller.get_offer_ids (seller.py lines 71-77).  The
pages argument is the sequence of responses the endpoint produces in order; an
Except.error element is a transport error raised by the fetch, which
propagates.  The loop extends the accumulator with the page items and breaks
exactly when the declared total of the current page equals the accumulated
item count.  ok none means the supplied responses were exhausted without the
break condition ever holding (the Python loop would keep polling). -/
def fetchLoop : List (Except String Page) → List Product →
    Except String (Option (List Product))
  | [], _ => Except.ok none
  | Except.error e :: _, _ => Except.error e
  | Except.ok p :: rest, acc =>
    let acc2 := acc ++ p.items
    if p.total = acc2.length then Except.ok (some acc2) else fetchLoop rest acc2

/-- seller.get_offer_ids (seller.py lines 69-81): run the pagination loop from
an empty accumulator, then project the offer_id field of every accumulated
product. -/
def get_offer_ids (pages : List (Except String Page)) :
    Except String (Option (List String)) :=
  (fetchLoop pages []).map (Option.map (List.map Product.offer_id))

/-- The stock-then-price dataflow of seller.main (seller.py lines 369-378):
create_stocks runs first and leaves the depleted offer_ids list behind; that
same list object is then passed to create_prices. -/
def mainPrices (watch_remnants : List CanonicalRecord) (offer_ids : List String) :
    Option (List PriceEntry) :=
  match create_stocks watch_remnants offer_ids with
  | none => none
  | some (_, rest) => some (create_prices watch_remnants rest)

end Seller

namespace Market

/-- One element of the "items" list of a market stock entry
(market.py lines 186-192). -/
structure StockItem where
  count : Int
  type : String
  updatedAt : String
deriving DecidableEq

/-- One element of the "stocks" list built by market.create_stocks
(market.py lines 182-194). -/
structure Stock where
  sku : String
  warehouseId : String
  items : List StockItem
deriving DecidableEq

/-- One element of the "prices" list built by market.create_prices
(market.py lines 236-247). -/
structure Price where
  id : String
  value : Int
  currencyId : String
deriving DecidableEq

/-- The first loop of market.create_stocks (market.py lines 173-195): same
control flow as the seller variant, different entry shape (sku / warehouseId /
items with the timestamp computed once before the loop and passed in here as
date). -/
def stocksLoop (warehouse_id date : String) :
    List CanonicalRecord → List String → Option (List Stock × List String)
  | [], ids => some ([], ids)
  | r :: rs, ids =>
    if r.code ∈ ids then
      match normalizeQuantity r.quantityRaw with
      | none => none
      | some q =>
        match stocksLoop warehouse_id date rs (ids.erase r.code) with
        | none => none
        | some (st, rest) => some (⟨r.code, warehouse_id, [⟨q, "FIT", date⟩]⟩ :: st, rest)
    else stocksLoop warehouse_id date rs ids

/-- market.create_stocks (market.py lines 151-211): matched entries followed by
count-0 fillers for the ids left in the depleted offer_ids list. -/
def create_stocks (watch_remnants : List CanonicalRecord) (offer_ids : List String)
    (warehouse_id date : String) : Option (List Stock × List String) :=
  match stocksLoop warehouse_id date watch_remnants offer_ids with
  | none => none
  | some (st, rest) =>
    some (st ++ rest.map (fun id => ⟨id, warehouse_id, [⟨0, "FIT", date⟩]⟩), rest)

/-- market.create_prices (market.py lines 233-249): one entry per feed row
whose code is contained in offer_ids; the price value goes through
int(price_conversion(...)), whose ValueError aborts the whole call. -/
def create_prices : List CanonicalRecord → List String → Option (List Price)
  | [], _ => some []
  | r :: rs, ids =>
    if r.code ∈ ids then
      match normalizePrice r.priceRaw with
      | none => none
      | some v =>
        match create_prices rs ids with
        | none => none
        | some ps => some (⟨r.code, v, "RUR"⟩ :: ps)
    else create_prices rs ids

/-- Observable actions of a market.main run: the feed download, a catalog
fetch (get_offer_ids) for a campaign, one stock-upload request per chunk
(update_stocks) and one price-upload request per chunk (update_price). -/
inductive Ev where
  | downloadFeed : Ev
  | fetchCatalog (campaign : String) : Ev
  | stockPush (campaign : String) (chunk : List Stock) : Ev
  | pricePush (campaign : String) (chunk : List Price) : Ev
deriving DecidableEq

/-- Whether an event is a price-upload request. -/
def Ev.isPricePush : Ev → Bool
  | .pricePush _ _ => true
  | _ => false

/-- The stock phase market.main performs for one campaign (market.py lines
284-288 and 293-297): fetch the catalog, build the stocks, push them in chunks
of 2000.  The catalog argument stands for the offer ids the fetch returned.
The Bool records whether the phase completed (false when create_stocks raised
on a malformed quantity, which aborts the run through the outer except).
divide with chunk size 2000 never fails, so getD [] is never exercised. -/
def stockPhase (records : List CanonicalRecord) (catalog : List String)
    (campaign warehouse date : String) : List Ev × Bool :=
  match create_stocks records catalog warehouse date with
  | none => ([Ev.fetchCatalog campaign], false)
  | some (stocks, _) =>
    (Ev.fetchCatalog campaign ::
      ((divide stocks 2000).getD []).map (Ev.stockPush campaign), true)

/-- The body of market.upload_prices (market.py lines 252-258) as it would
execute if it were actually run: fetch the catalog again, build the prices,
push them in chunks of 500. -/
def upload_prices (watch_remnants : List CanonicalRecord) (catalog : List String)
    (campaign : String) : List Ev × Bool :=
  match create_prices watch_remnants catalog with
  | none => ([Ev.fetchCatalog campaign], false)
  | some prices =>
    (Ev.fetchCatalog campaign ::
      ((divide prices 500).getD []).map (Ev.pricePush campaign), true)

/-- Event trace of market.main (market.py lines 273-306) as the code is
written.  The price phases (lines 290 and 299) call the coroutine function
upload_prices without await and no event loop ever runs the returned coroutine
object, so those calls contribute no events at all.  A failure in a stock
phase aborts the run (one outer try across both campaigns); a failure in the
DBS stock phase still keeps the events already produced. -/
def main (records : List CanonicalRecord) (fbsCatalog dbsCatalog : List String)
    (campaignFbs campaignDbs warehouseFbs warehouseDbs date : String) : List Ev :=
  match stockPhase records fbsCatalog campaignFbs warehouseFbs date with
  | (evs, false) => Ev.downloadFeed :: evs
  | (evs, true) =>
    let dbs := stockPhase records dbsCatalog campaignDbs warehouseDbs date
    Ev.downloadFeed :: (evs ++ dbs.1)

/-- Event trace of the same orchestration under plain synchronous sequential
execution, the behavior the specification describes: each campaign runs its
stock phase and then the body of upload_prices to completion, one after the
other, aborting everything at the first failure. -/
def mainSync (records : List CanonicalRecord) (fbsCatalog dbsCatalog : List String)
    (campaignFbs campaignDbs warehouseFbs warehouseDbs date : String) : List Ev :=
  match stockPhase records fbsCatalog campaignFbs warehouseFbs date with
  | (evs, false) => Ev.downloadFeed :: evs
  | (evs, true) =>
    match upload_prices records fbsCatalog campaignFbs with
    | (evsP, false) => Ev.downloadFeed :: (evs ++ evsP)
    | (evsP, true) =>
      match stockPhase records dbsCatalog campaignDbs warehouseDbs date with
      | (evs2, false) => Ev.downloadFeed :: (evs ++ evsP ++ evs2)
      | (evs2, true) =>
        let dbsP := upload_prices records dbsCatalog campaignDbs
        Ev.downloadFeed :: (evs ++ evsP ++ evs2 ++ dbsP.1)

end Market

/-! Lemmas about the int() model -/

lemma digit_not_ws {c : Char} (h : c.isDigit = true) : c.isWhitespace = false := by
  simp only [Char.isDigit, Bool.and_eq_true, decide_eq_true_eq, ge_iff_le] at h
  obtain ⟨h1, h2⟩ := h
  have n1 : (48 : Nat) ≤ c.val.toNat := h1
  have n2 : c.val.toNat ≤ 57 := h2
  simp only [Char.isWhitespace, Bool.or_eq_false_iff, decide_eq_false_iff_not]
  refine ⟨⟨⟨fun hc => ?_, fun hc => ?_⟩, fun hc => ?_⟩, fun hc => ?_⟩ <;>
    (subst hc; simp_all)

lemma dropWhile_ws_of_digits {ds : List Char} (h : ds.all Char.isDigit = true) :
    ds.dropWhile Char.isWhitespace = ds := by
  cases ds with
  | nil => rfl
  | cons d t =>
    have hd : d.isDigit = true := by
      simp only [List.all_cons, Bool.and_eq_true] at h
      exact h.1
    rw [List.dropWhile_cons, digit_not_ws hd]
    simp

lemma stripWs_of_digits {ds : List Char} (h : ds.all Char.isDigit = true) :
    stripWs ds = ds := by
  have hrev : ds.reverse.all Char.isDigit = true := by simpa using h
  unfold stripWs
  rw [dropWhile_ws_of_digits h, dropWhile_ws_of_digits hrev, List.reverse_reverse]

lemma pyIntCore_digits {ds : List Char} (h1 : ds ≠ []) (h2 : ds.all Char.isDigit = true) :
    pyIntCore ds = some ((digitsVal ds : Int)) := by
  cases ds with
  | nil => simp at h1
  | cons d t =>
    have hd : d.isDigit = true := by
      simp only [List.all_cons, Bool.and_eq_true] at h2
      exact h2.1
    have hm : d ≠ '-' := by
      intro hc
      subst hc
      simp [Char.isDigit] at hd
    have hp : d ≠ '+' := by
      intro hc
      subst hc
      simp [Char.isDigit] at hd
    rw [pyIntCore, if_neg hm, if_neg hp, if_pos h2]

lemma pyIntChars_digits {ds : List Char} (h1 : ds ≠ []) (h2 : ds.all Char.isDigit = true) :
    pyIntChars ds = some ((digitsVal ds : Int)) := by
  rw [pyIntChars, stripWs_of_digits h2, pyIntCore_digits h1 h2]

lemma filter_digits_all (cs : List Char) :
    (cs.filter Char.isDigit).all Char.isDigit = true := by
  rw [List.all_eq_true]
  intro x hx
  exact (List.mem_filter.mp hx).2

/-- C3: normalizeQuantity maps ">10" to 100 and "1" to 0; any other raw string
is parsed by int(): a string of decimal digits yields the value it denotes and
a string int() rejects makes the operation fail. -/
theorem normalizeQuantity_policy :
    normalizeQuantity ">10" = some 100 ∧
    normalizeQuantity "1" = some 0 ∧
    normalizeQuantity "7" = some 7 ∧
    normalizeQuantity "abc" = none ∧
    (∀ ds : List Char, ds ≠ [] → ds.all Char.isDigit = true → String.mk ds ≠ "1" →
      normalizeQuantity (String.mk ds) = some ((digitsVal ds : Int))) ∧
    (∀ raw : String, raw ≠ ">10" → raw ≠ "1" → pyInt raw = none →
      normalizeQuantity raw = none) := by
  refine ⟨by decide, by decide, by decide, by decide, ?_, ?_⟩
  · intro ds h1 h2 h3
    have hgt : String.mk ds ≠ ">10" := by
      intro hc
      have hds : ds = ['>', '1', '0'] := congrArg String.data hc
      subst hds
      simp at h2
    rw [normalizeQuantity, if_neg hgt, if_neg h3]
    show pyIntChars (String.mk ds).toList = some ((digitsVal ds : Int))
    exact pyIntChars_digits h1 h2
  · intro raw hgt h1 hnone
    rw [normalizeQuantity, if_neg hgt, if_neg h1]
    exact hnone

/-- Witness for the quantified parts of normalizeQuantity_policy, at the digit
string "25" and at the unparsable string "x7". -/
theorem normalizeQuantity_policy_witness :
    normalizeQuantity (String.mk ['2', '5']) = some 25 ∧ normalizeQuantity "x7" = none := by
  constructor
  · have h := normalizeQuantity_policy.2.2.2.2.1 ['2', '5'] (by decide) (by decide) (by decide)
    rw [h]
    decide
  · exact normalizeQuantity_policy.2.2.2.2.2 "x7" (by decide) (by decide) (by decide)

/-- C4: price normalization (as the market side consumes it,
int(price_conversion(raw))) truncates at the first dot, strips every
non-digit, and parses the remaining digit string as an integer; it fails
exactly when no digits remain. -/
theorem normalizePrice_policy :
    normalizePrice "5'990.00 руб." = some 5990 ∧
    normalizePrice "100" = some 100 ∧
    normalizePrice "" = none ∧
    (∀ raw : String, price_conversion raw
        = String.mk ((raw.toList.takeWhile (fun c => c != '.')).filter Char.isDigit)) ∧
    (∀ raw : String, price_conversion raw = "" → normalizePrice raw = none) ∧
    (∀ raw : String, price_conversion raw ≠ "" →
      normalizePrice raw = some ((digitsVal (price_conversion raw).toList : Int))) := by
  refine ⟨by decide, by decide, by decide, fun raw => rfl, ?_, ?_⟩
  · intro raw h
    rw [normalizePrice, h]
    decide
  · intro raw h
    have hne : (price_conversion raw).toList ≠ [] := by
      intro hc
      exact h (String.ext hc)
    have hall : (price_conversion raw).toList.all Char.isDigit = true :=
      filter_digits_all _
    rw [normalizePrice]
    exact pyIntChars_digits hne hall

/-- Witness for the quantified parts of normalizePrice_policy, at a raw price
with digits before the dot and at one without any digit. -/
theorem normalizePrice_policy_witness :
    normalizePrice "12.5x" = some 12 ∧ normalizePrice "x." = none := by
  constructor
  · have h := normalizePrice_policy.2.2.2.2.2 "12.5x" (by decide)
    rw [h]
    decide
  · exact normalizePrice_policy.2.2.2.2.1 "x." (by decide)

/-! Lemmas about the chunker -/

lemma chunksGo_flatten {α : Type} (n : Nat) (hn : 0 < n) :
    ∀ (fuel : Nat) (lst : List α), lst.length ≤ fuel →
      (chunksGo n fuel lst).flatten = lst := by
  intro fuel
  induction fuel with
  | zero =>
    intro lst h
    have : lst = [] := List.eq_nil_of_length_eq_zero (Nat.le_zero.mp h)
    subst this
    rfl
  | succ f ih =>
    intro lst h
    cases lst with
    | nil => rfl
    | cons x xs =>
      rw [chunksGo, List.flatten_cons, ih]
      · exact List.take_append_drop n (x :: xs)
      · simp only [List.length_drop, List.length_cons] at *
        omega

lemma chunksGo_ne_nil {α : Type} (n fuel : Nat) (x : α) (xs : List α) (hf : 0 < fuel) :
    chunksGo n fuel (x :: xs) ≠ [] := by
  cases fuel with
  | zero => omega
  | succ f => simp [chunksGo]

lemma chunksGo_dropLast {α : Type} (n : Nat) (hn : 0 < n) :
    ∀ (fuel : Nat) (lst : List α), lst.length ≤ fuel →
      ∀ c ∈ (chunksGo n fuel lst).dropLast, c.length = n := by
  intro fuel
  induction fuel with
  | zero =>
    intro lst h
    have : lst = [] := List.eq_nil_of_length_eq_zero (Nat.le_zero.mp h)
    subst this
    simp [chunksGo]
  | succ f ih =>
    intro lst h c hc
    cases lst with
    | nil => simp [chunksGo] at hc
    | cons x xs =>
      rw [chunksGo] at hc
      rcases hd : (x :: xs).drop n with _ | ⟨y, ys⟩
      · rw [hd] at hc
        simp [chunksGo] at hc
      · have hlen : n < (x :: xs).length := by
          by_contra hle
          rw [List.drop_eq_nil_iff_le.mpr (by omega)] at hd
          exact (List.cons_ne_nil y ys).symm hd
        have hfpos : 0 < f := by
          simp only [List.length_cons] at h hlen
          omega
        have hne : chunksGo n f ((x :: xs).drop n) ≠ [] := by
          rw [hd]
          exact chunksGo_ne_nil n f y ys hfpos
        rw [List.dropLast_cons_of_ne_nil hne] at hc
        rcases List.mem_cons.mp hc with rfl | hmem
        · simp only [List.length_take, List.length_cons] at hlen ⊢
          omega
        · refine ih ((x :: xs).drop n) ?_ c hmem
          simp only [List.length_drop, List.length_cons] at h ⊢
          omega

lemma chunksGo_getLast {α : Type} (n : Nat) (hn : 0 < n) :
    ∀ (fuel : Nat) (lst : List α) (c : List α), lst.length ≤ fuel →
      (chunksGo n fuel lst).getLast? = some c →
      c.length = if lst.length % n = 0 then n else lst.length % n := by
  intro fuel
  induction fuel with
  | zero =>
    intro lst c h hc
    have : lst = [] := List.eq_nil_of_length_eq_zero (Nat.le_zero.mp h)
    subst this
    simp [chunksGo] at hc
  | succ f ih =>
    intro lst c h hc
    cases lst with
    | nil => simp [chunksGo] at hc
    | cons x xs =>
      rw [chunksGo] at hc
      rcases hd : (x :: xs).drop n with _ | ⟨y, ys⟩
      · -- the whole list fits in one (last) chunk
        have hle : (x :: xs).length ≤ n := by
          have := List.drop_eq_nil_iff_le.mp hd
          simpa using this
        rw [hd] at hc
        simp only [chunksGo, List.getLast?_singleton, Option.some.injEq] at hc
        subst hc
        have hpos : 0 < (x :: xs).length := by simp
        simp only [List.length_take]
        rcases Nat.lt_or_ge (x :: xs).length n with hlt | hge
        · rw [if_neg, Nat.min_eq_right (Nat.le_of_lt hlt)]
          · exact (Nat.mod_eq_of_lt hlt).symm
          · rw [Nat.mod_eq_of_lt hlt]
            omega
        · have heq : (x :: xs).length = n := Nat.le_antisymm hle hge
          rw [heq, Nat.mod_self, if_pos rfl, Nat.min_self]
      · have hlen : n < (x :: xs).length := by
          by_contra hle
          rw [List.drop_eq_nil_iff_le.mpr (by omega)] at hd
          exact (List.cons_ne_nil y ys).symm hd
        have hfpos : 0 < f := by
          simp only [List.length_cons] at h hlen
          omega
        have hne : chunksGo n f ((x :: xs).drop n) ≠ [] := by
          rw [hd]
          exact chunksGo_ne_nil n f y ys hfpos
        rcases hrest : chunksGo n f ((x :: xs).drop n) with _ | ⟨c0, cs⟩
        · exact absurd hrest hne
        · rw [hrest, List.getLast?_cons_cons] at hc
          have hlast := ih ((x :: xs).drop n) c ?_ (by rw [hrest]; exact hc)
          · have harith : ((x :: xs).drop n).length = (x :: xs).length - n := by
              simp [List.length_drop]
            rw [harith] at hlast
            have hmod : ((x :: xs).length - n) % n = (x :: xs).length % n := by
              conv_rhs => rw [show (x :: xs).length = ((x :: xs).length - n) + n by omega]
              rw [Nat.add_mod_right]
            rw [hmod] at hlast
            exact hlast
          · simp only [List.length_drop, List.length_cons] at h ⊢
            omega

/-- C5: for every list and every integer chunk size n greater than 0, divide
succeeds, concatenating its chunks in order reproduces the list exactly, every
chunk except possibly the last has length n, and the last chunk has length
len mod n (or n when n divides len evenly). -/
theorem divide_chunk_spec {α : Type} (lst : List α) (n : Int) (h : 0 < n) :
    ∃ cs, divide lst n = some cs ∧ cs.flatten = lst ∧
      (∀ c ∈ cs.dropLast, c.length = n.toNat) ∧
      (∀ c, cs.getLast? = some c →
        c.length = if lst.length % n.toNat = 0 then n.toNat else lst.length % n.toNat) := by
  have hne : n ≠ 0 := by omega
  have hnlt : ¬ n < 0 := by omega
  have hpos : 0 < n.toNat := by omega
  refine ⟨chunksGo n.toNat lst.length lst, ?_, ?_, ?_, ?_⟩
  · rw [divide, if_neg hne, if_neg hnlt]
  · exact chunksGo_flatten n.toNat hpos lst.length lst (Nat.le_refl _)
  · exact chunksGo_dropLast n.toNat hpos lst.length lst (Nat.le_refl _)
  · intro c hc
    exact chunksGo_getLast n.toNat hpos lst.length lst c (Nat.le_refl _) hc

/-- Witness for divide_chunk_spec at the list [1, 2, 3] with chunk size 2. -/
theorem divide_chunk_spec_witness :
    (0 : Int) < 2 ∧
    ∃ cs, divide ([1, 2, 3] : List Nat) 2 = some cs ∧ cs.flatten = [1, 2, 3] ∧
      (∀ c ∈ cs.dropLast, c.length = (2 : Int).toNat) ∧
      (∀ c, cs.getLast? = some c →
        c.length = if ([1, 2, 3] : List Nat).length % (2 : Int).toNat = 0
          then (2 : Int).toNat else ([1, 2, 3] : List Nat).length % (2 : Int).toNat) :=
  ⟨by decide, divide_chunk_spec [1, 2, 3] 2 (by decide)⟩

/-- C6 counterexample: the claim says divide fails for every size less than or
equal to 0, but for the negative size -1 the code yields no chunks and raises
nothing (range(0, 1, -1) is empty), so the call succeeds with an empty chunk
sequence instead of failing. -/
theorem divide_neg_size_cex :
    divide ([1] : List Nat) (-1) = some [] := by decide

/-- C6 amended: divide with size 0 fails (range rejects a zero step when the
generator is iterated); divide with a negative size produces the empty
sequence of chunks and does not fail. -/
theorem divide_nonpos_size {α : Type} (lst : List α) (n : Int) (h : n ≤ 0) :
    divide lst n = if n = 0 then none else some [] := by
  by_cases h0 : n = 0
  · rw [divide, if_pos h0, if_pos h0]
  · have hlt : n < 0 := by omega
    rw [divide, if_neg h0, if_pos hlt, if_neg h0]

/-- Witness for divide_nonpos_size at the list [1, 2] with size -2. -/
theorem divide_nonpos_size_witness :
    divide ([1, 2] : List Nat) (-2) = if (-2 : Int) = 0 then none else some [] :=
  divide_nonpos_size [1, 2] (-2) (by decide)

/-! Lemmas about stock and price reconciliation -/

lemma stocksLoop_perm :
    ∀ (rs : List CanonicalRecord) (ids : List String) (st : List Seller.StockEntry)
      (rest : List String), Seller.stocksLoop rs ids = some (st, rest) →
      ((st.map Seller.StockEntry.offer_id) ++ rest).Perm ids := by
  intro rs
  induction rs with
  | nil =>
    intro ids st rest h
    rw [Seller.stocksLoop, Option.some.injEq, Prod.mk.injEq] at h
    obtain ⟨h1, h2⟩ := h
    subst h1
    subst h2
    simp
  | cons r rs ih =>
    intro ids st rest h
    rw [Seller.stocksLoop] at h
    by_cases hc : r.code ∈ ids
    · rw [if_pos hc] at h
      cases hq : normalizeQuantity r.quantityRaw with
      | none => rw [hq] at h; exact absurd h (by simp)
      | some q =>
        rw [hq] at h
        cases hl : Seller.stocksLoop rs (ids.erase r.code) with
        | none => rw [hl] at h; exact absurd h (by simp)
        | some pr =>
          obtain ⟨st2, rest2⟩ := pr
          rw [hl, Option.some.injEq, Prod.mk.injEq] at h
          obtain ⟨h1, h2⟩ := h
          subst h1
          subst h2
          have hperm := ih (ids.erase r.code) st2 rest2 hl
          have hgoal : ((⟨r.code, q⟩ :: st2 : List Seller.StockEntry).map
                  Seller.StockEntry.offer_id) ++ rest2
              = r.code :: ((st2.map Seller.StockEntry.offer_id) ++ rest2) := by simp
          rw [hgoal]
          exact (hperm.cons r.code).trans (List.perm_cons_erase hc).symm
    · rw [if_neg hc] at h
      exact ih ids st rest h

lemma stocksLoop_snd :
    ∀ (rs : List CanonicalRecord) (ids : List String) (st : List Seller.StockEntry)
      (rest : List String), ids.Nodup → Seller.stocksLoop rs ids = some (st, rest) →
      rest = ids.filter (fun id => !(rs.any (fun r => r.code == id))) := by
  intro rs
  induction rs with
  | nil =>
    intro ids st rest hnd h
    rw [Seller.stocksLoop, Option.some.injEq, Prod.mk.injEq] at h
    obtain ⟨h1, h2⟩ := h
    subst h2
    simp
  | cons r rs ih =>
    intro ids st rest hnd h
    rw [Seller.stocksLoop] at h
    by_cases hc : r.code ∈ ids
    · rw [if_pos hc] at h
      cases hq : normalizeQuantity r.quantityRaw with
      | none => rw [hq] at h; exact absurd h (by simp)
      | some q =>
        rw [hq] at h
        cases hl : Seller.stocksLoop rs (ids.erase r.code) with
        | none => rw [hl] at h; exact absurd h (by simp)
        | some pr =>
          obtain ⟨st2, rest2⟩ := pr
          rw [hl, Option.some.injEq, Prod.mk.injEq] at h
          obtain ⟨h1, h2⟩ := h
          subst h1
          subst h2
          have hrec := ih (ids.erase r.code) st2 rest2 (hnd.erase r.code) hl
          rw [hrec, hnd.erase_eq_filter r.code, List.filter_filter]
          apply List.filter_congr
          intro x hx
          simp only [List.any_cons, Bool.not_or, bne]
          have hsymm : (x == r.code) = (r.code == x) := by
            cases hb : x == r.code
            · cases hb2 : r.code == x
              · rfl
              · have hre : r.code = x := eq_of_beq hb2
                subst hre
                simp at hb
            · have hxe : x = r.code := eq_of_beq hb
              subst hxe
              simp
          rw [Bool.and_comm, hsymm]
    · rw [if_neg hc] at h
      have hrec := ih ids st rest hnd h
      rw [hrec]
      apply List.filter_congr
      intro x hx
      have hne : (r.code == x) = false := by
        cases hb : r.code == x
        · rfl
        · exact absurd (eq_of_beq hb ▸ hx) hc
      simp [List.any_cons, hne]

lemma create_stocks_snd (records : List CanonicalRecord) (offer_ids : List String)
    (st : List Seller.StockEntry) (rest : List String) (hnd : offer_ids.Nodup)
    (h : Seller.create_stocks records offer_ids = some (st, rest)) :
    rest = offer_ids.filter (fun id => !(records.any (fun r => r.code == id))) := by
  rw [Seller.create_stocks] at h
  cases hl : Seller.stocksLoop records offer_ids with
  | none => rw [hl] at h; exact absurd h (by simp)
  | some pr =>
    obtain ⟨st2, rest2⟩ := pr
    rw [hl, Option.some.injEq, Prod.mk.injEq] at h
    obtain ⟨h1, h2⟩ := h
    subst h2
    exact stocksLoop_snd records offer_ids st2 rest2 hnd hl

lemma create_prices_map :
    ∀ (rs : List CanonicalRecord) (ids : List String),
      (Seller.create_prices rs ids).map Seller.PriceEntry.offer_id
        = (rs.filter (fun r => r.code ∈ ids)).map CanonicalRecord.code := by
  intro rs
  induction rs with
  | nil => intro ids; rfl
  | cons r rs ih =>
    intro ids
    by_cases hc : r.code ∈ ids
    · simp [Seller.create_prices, hc, ih ids]
    · simp [Seller.create_prices, hc, ih ids]

lemma create_prices_mem :
    ∀ (rs : List CanonicalRecord) (ids : List String) (e : Seller.PriceEntry),
      e ∈ Seller.create_prices rs ids → e.offer_id ∈ ids := by
  intro rs
  induction rs with
  | nil =>
    intro ids e he
    simp [Seller.create_prices] at he
  | cons r rs ih =>
    intro ids e he
    rw [Seller.create_prices] at he
    by_cases hc : r.code ∈ ids
    · rw [if_pos hc] at he
      rcases List.mem_cons.mp he with rfl | hm
      · exact hc
      · exact ih ids e hm
    · rw [if_neg hc] at he
      exact ih ids e he

/-- C1 counterexample: the claim says create_stocks leaves the
offer_ids with exactly the same elements, but with one record matching the
single listed id "A" the call ends with the list of the caller empty: "A" is in
the list before the call and not after it. -/
theorem create_stocks_mutation_cex :
    "A" ∈ (["A"] : List String) ∧
    Seller.create_stocks [⟨"A", "5", "100"⟩] ["A"] = some ([⟨"A", 5⟩], []) ∧
    "A" ∉ ([] : List String) := by decide

/-- C1 amended: create_stocks mutates the offer_ids list of the caller: every
matched code is removed in place, so after a successful call on a
duplicate-free offer_ids the list of the caller holds exactly the ids whose
code no record matched, in their original order. -/
theorem create_stocks_mutation (records : List CanonicalRecord) (offer_ids : List String)
    (st : List Seller.StockEntry) (rest : List String) (hnd : offer_ids.Nodup)
    (h : Seller.create_stocks records offer_ids = some (st, rest)) :
    rest = offer_ids.filter (fun id => !(records.any (fun r => r.code == id))) :=
  create_stocks_snd records offer_ids st rest hnd h

/-- Witness for create_stocks_mutation: one record matching "A" against the
set containing "A" and "B" leaves the list holding exactly "B". -/
theorem create_stocks_mutation_witness :
    (["B"] : List String)
      = (["A", "B"] : List String).filter
          (fun id => !(([⟨"A", "5", "x"⟩] : List CanonicalRecord).any
              (fun r => r.code == id))) :=
  create_stocks_mutation [⟨"A", "5", "x"⟩] ["A", "B"] [⟨"A", 5⟩, ⟨"B", 0⟩] ["B"]
    (by decide) (by decide)

/-- C2: on a duplicate-free offer id set, a successful create_stocks emits a
stock list whose offer_id multiset contains every known id exactly once and
nothing else: the count of any id in the output is 1 when the id is known and
0 otherwise. -/
theorem create_stocks_bijection (records : List CanonicalRecord) (offer_ids : List String)
    (stocks : List Seller.StockEntry) (rest : List String) (hnd : offer_ids.Nodup)
    (h : Seller.create_stocks records offer_ids = some (stocks, rest)) :
    ∀ id : String, (stocks.map Seller.StockEntry.offer_id).count id
      = if id ∈ offer_ids then 1 else 0 := by
  rw [Seller.create_stocks] at h
  cases hl : Seller.stocksLoop records offer_ids with
  | none => rw [hl] at h; exact absurd h (by simp)
  | some pr =>
    obtain ⟨st2, rest2⟩ := pr
    rw [hl, Option.some.injEq, Prod.mk.injEq] at h
    obtain ⟨h1, h2⟩ := h
    subst h1
    have hperm := stocksLoop_perm records offer_ids st2 rest2 hl
    have hmap : ((st2 ++ rest2.map (fun i => (⟨i, 0⟩ : Seller.StockEntry))).map
        Seller.StockEntry.offer_id) = (st2.map Seller.StockEntry.offer_id) ++ rest2 := by
      rw [List.map_append, List.map_map,
        show (Seller.StockEntry.offer_id ∘ fun i => (⟨i, 0⟩ : Seller.StockEntry)) = id
          from rfl, List.map_id]
    intro id
    rw [hmap, hperm.count_eq]
    by_cases hm : id ∈ offer_ids
    · rw [if_pos hm, List.count_eq_one_of_mem hnd hm]
    · rw [if_neg hm, List.count_eq_zero_of_not_mem hm]

/-- Witness for create_stocks_bijection: a feed with a duplicated code "A"
against the known ids "A" and "B"; both ids are counted once in the output. -/
theorem create_stocks_bijection_witness :
    (([⟨"A", 5⟩, ⟨"B", 0⟩] : List Seller.StockEntry).map
        Seller.StockEntry.offer_id).count "A"
      = if "A" ∈ (["A", "B"] : List String) then 1 else 0 :=
  create_stocks_bijection [⟨"A", "5", "x"⟩, ⟨"A", ">10", "y"⟩] ["A", "B"]
    [⟨"A", 5⟩, ⟨"B", 0⟩] ["B"] (by decide) (by decide) "A"

/-- C7: create_prices is sparse and does not deduplicate: the offer ids of its
output are exactly the codes of the feed rows whose code is a known id, in
feed order (so every emitted entry is for a known id, unmatched ids get no
filler, and a code listed twice in the feed emits twice); create_stocks, by
contrast, uses only the first occurrence of a duplicated code. -/
theorem create_prices_sparse_no_dedup :
    (∀ (records : List CanonicalRecord) (offer_ids : List String),
      (Seller.create_prices records offer_ids).map Seller.PriceEntry.offer_id
        = (records.filter (fun r => r.code ∈ offer_ids)).map CanonicalRecord.code) ∧
    (∀ (records : List CanonicalRecord) (offer_ids : List String)
      (e : Seller.PriceEntry),
      e ∈ Seller.create_prices records offer_ids → e.offer_id ∈ offer_ids) ∧
    (Seller.create_prices [⟨"A", "1", "10"⟩, ⟨"A", "2", "20"⟩] ["A"]).length = 2 ∧
    Seller.create_stocks [⟨"A", "5", "10"⟩, ⟨"A", "7", "20"⟩] ["A"]
      = some ([⟨"A", 5⟩], []) :=
  ⟨create_prices_map, create_prices_mem, by decide, by decide⟩

/-- Witness for the membership part of create_prices_sparse_no_dedup. -/
theorem create_prices_sparse_no_dedup_witness :
    (⟨"UNKNOWN", "RUB", "A", "0", "10"⟩ : Seller.PriceEntry).offer_id
      ∈ (["A"] : List String) :=
  create_prices_sparse_no_dedup.2.1 [⟨"A", "1", "10"⟩] ["A"]
    ⟨"UNKNOWN", "RUB", "A", "0", "10"⟩ (by decide)

/-- C10: in seller.main the depleted offer_ids list left behind by
create_stocks is what create_prices receives, so an id that was matched
during the stock step (it was listed, duplicate-free, and some feed record
carries its code) never appears in the output of the price step. -/
theorem stock_step_starves_price_step (records : List CanonicalRecord)
    (offer_ids : List String) (hnd : offer_ids.Nodup) (ps : List Seller.PriceEntry)
    (h : Seller.mainPrices records offer_ids = some ps) (id : String)
    (hm : id ∈ offer_ids) (r : CanonicalRecord) (hr : r ∈ records)
    (hcode : r.code = id) :
    ps.all (fun e => e.offer_id != id) = true := by
  rw [Seller.mainPrices] at h
  cases hcs : Seller.create_stocks records offer_ids with
  | none => rw [hcs] at h; exact absurd h (by simp)
  | some pr =>
    obtain ⟨st2, rest2⟩ := pr
    rw [hcs, Option.some.injEq] at h
    subst h
    rw [List.all_eq_true]
    intro e he
    rw [bne_iff_ne]
    intro heq
    have hmem := create_prices_mem records rest2 e he
    have hrest := create_stocks_snd records offer_ids st2 rest2 hnd hcs
    rw [hrest] at hmem
    have hpred := (List.mem_filter.mp hmem).2
    rw [heq] at hpred
    have hany : records.any (fun r2 => r2.code == id) = true := by
      rw [List.any_eq_true]
      exact ⟨r, hr, by simp [hcode]⟩
    rw [hany] at hpred
    simp at hpred

/-- Witness for stock_step_starves_price_step: with the single listed id "A"
matched by the only feed record, the price step output is empty — in
particular free of entries for "A". -/
theorem stock_step_starves_price_step_witness :
    ([] : List Seller.PriceEntry).all (fun e => e.offer_id != "A") = true :=
  stock_step_starves_price_step [⟨"A", "5", "9"⟩] ["A"] (by decide) [] (by decide)
    "A" (by decide) ⟨"A", "5", "9"⟩ (by decide) (by decide)

/-- C8: the count-based pagination of seller.get_offer_ids stops as soon as
the accumulated item count equals the declared total of the page just fetched
(whatever responses would follow are never requested), returning the offer-id
projection of everything accumulated; an empty first page with declared total
0 yields the empty offer-id list without error; and a transport error raised
by a page fetch propagates, whether it is the first response or follows pages
that did not satisfy the stop condition. -/
theorem get_offer_ids_pagination :
    (∀ (acc : List Seller.Product) (p : Seller.Page)
      (rest : List (Except String Seller.Page)),
      p.total = (acc ++ p.items).length →
      Seller.fetchLoop (Except.ok p :: rest) acc = Except.ok (some (acc ++ p.items))) ∧
    (∀ (p : Seller.Page) (rest : List (Except String Seller.Page)),
      p.total = p.items.length →
      Seller.get_offer_ids (Except.ok p :: rest)
        = Except.ok (some (p.items.map Seller.Product.offer_id))) ∧
    (∀ rest : List (Except String Seller.Page),
      Seller.get_offer_ids (Except.ok ⟨[], 0, ""⟩ :: rest) = Except.ok (some [])) ∧
    (∀ (e : String) (rest : List (Except String Seller.Page)),
      Seller.get_offer_ids (Except.error e :: rest) = Except.error e) ∧
    (∀ (p : Seller.Page) (e : String) (rest : List (Except String Seller.Page)),
      p.total ≠ p.items.length →
      Seller.get_offer_ids (Except.ok p :: Except.error e :: rest) = Except.error e) := by
  have hstop : ∀ (acc : List Seller.Product) (p : Seller.Page)
      (rest : List (Except String Seller.Page)),
      p.total = (acc ++ p.items).length →
      Seller.fetchLoop (Except.ok p :: rest) acc = Except.ok (some (acc ++ p.items)) := by
    intro acc p rest h
    rw [Seller.fetchLoop]
    simp only [if_pos h]
  refine ⟨hstop, ?_, ?_, ?_, ?_⟩
  · intro p rest h
    rw [Seller.get_offer_ids, hstop [] p rest (by simpa using h)]
    rfl
  · intro rest
    rw [Seller.get_offer_ids, hstop [] ⟨[], 0, ""⟩ rest (by simp)]
    rfl
  · intro e rest
    rw [Seller.get_offer_ids, Seller.fetchLoop]
    rfl
  · intro p e rest h
    rw [Seller.get_offer_ids, Seller.fetchLoop]
    have hne : ¬ p.total = ([] ++ p.items : List Seller.Product).length := by
      simpa using h
    simp only [if_neg hne]
    rw [Seller.fetchLoop]
    rfl

/-- Witness for get_offer_ids_pagination at concrete pages: a satisfied first
page, an empty first page, an immediate transport error, and a transport
error after an unsatisfied page. -/
theorem get_offer_ids_pagination_witness :
    Seller.get_offer_ids [Except.ok ⟨[⟨"A"⟩], 1, "x"⟩] = Except.ok (some ["A"]) ∧
    Seller.get_offer_ids [Except.ok ⟨[], 0, ""⟩] = Except.ok (some []) ∧
    Seller.get_offer_ids [Except.error "conn reset"] = Except.error "conn reset" ∧
    Seller.get_offer_ids [Except.ok ⟨[⟨"A"⟩], 2, "x"⟩, Except.error "conn reset"]
      = Except.error "conn reset" :=
  ⟨get_offer_ids_pagination.2.1 ⟨[⟨"A"⟩], 1, "x"⟩ [] (by decide),
   get_offer_ids_pagination.2.2.1 [],
   get_offer_ids_pagination.2.2.2.1 "conn reset" [],
   get_offer_ids_pagination.2.2.2.2 ⟨[⟨"A"⟩], 2, "x"⟩ "conn reset" [] (by decide)⟩

/-! Lemmas about the market orchestrator trace -/

lemma stockPhase_no_price (records : List CanonicalRecord) (catalog : List String)
    (campaign warehouse date : String) :
    (Market.stockPhase records catalog campaign warehouse date).1.all
      (fun e => !e.isPricePush) = true := by
  cases h : Market.create_stocks records catalog warehouse date with
  | none =>
    rw [Market.stockPhase, h]
    rfl
  | some pr =>
    obtain ⟨stocks, rest⟩ := pr
    rw [Market.stockPhase, h]
    simp only [List.all_cons, Bool.and_eq_true]
    refine ⟨rfl, ?_⟩
    rw [List.all_eq_true]
    intro x hx
    rcases List.mem_map.mp hx with ⟨c, hc, rfl⟩
    rfl

/-- C9: market.main issues no price-dispatch request at all: the calls to
upload_prices return coroutine objects that are never awaited, so for every
input the actual event trace is free of price pushes, while the synchronous
sequential execution of the same phases (shown at a concrete run with one
listed offer and one matching feed record) does push prices.  The claimed
equivalence with synchronous sequential calls therefore fails on the price
phase. -/
theorem market_main_price_phase_never_runs :
    (∀ (records : List CanonicalRecord) (fbsCatalog dbsCatalog : List String)
      (campaignFbs campaignDbs warehouseFbs warehouseDbs date : String),
      (Market.main records fbsCatalog dbsCatalog campaignFbs campaignDbs
          warehouseFbs warehouseDbs date).all (fun e => !e.isPricePush) = true) ∧
    (Market.mainSync [⟨"A", "5", "100"⟩] ["A"] ["A"] "fbs" "dbs" "wf" "wd" "t").any
      (fun e => e.isPricePush) = true := by
  constructor
  · intro records fbsCatalog dbsCatalog campaignFbs campaignDbs warehouseFbs
      warehouseDbs date
    rw [Market.main]
    cases h1 : Market.stockPhase records fbsCatalog campaignFbs warehouseFbs date with
    | mk evs ok =>
      have ha1 : evs.all (fun e => !e.isPricePush) = true := by
        have hsp := stockPhase_no_price records fbsCatalog campaignFbs warehouseFbs date
        rw [h1] at hsp
        exact hsp
      have ha2 : (Market.stockPhase records dbsCatalog campaignDbs
          warehouseDbs date).1.all (fun e => !e.isPricePush) = true :=
        stockPhase_no_price records dbsCatalog campaignDbs warehouseDbs date
      cases ok with
      | false =>
        show (Market.Ev.downloadFeed :: evs).all (fun e => !e.isPricePush) = true
        simp only [List.all_cons, Bool.and_eq_true]
        exact ⟨rfl, ha1⟩
      | true =>
        show (Market.Ev.downloadFeed :: (evs ++ (Market.stockPhase records dbsCatalog
            campaignDbs warehouseDbs date).1)).all (fun e => !e.isPricePush) = true
        simp only [List.all_cons, List.all_append, Bool.and_eq_true]
        exact ⟨rfl, ha1, ha2⟩
  · decide
